import Mathlib

/-!
# Verification of the free-list memory allocator (`src/main.c`)

Shallow embedding of the sbrk-based free-list allocator.  The C program keeps
a singly linked chain of blocks, each block being a header
(`size`, `free`, `next`) immediately followed by its payload.  We embed the
chain as a `List Block` in next-pointer order, where each `Block` records the
address of its header (`addr`), its payload capacity (`size`) and its
occupancy flag (`free`).  The `next` pointer of the C struct is represented
positionally: the successor of a block is the next element of the list, and
`next = NULL` at the end of the list.  The program break maintained by `sbrk`
is the `brk` field of the `Heap`.

Payload bytes are modelled by a separate byte store `Mem : Nat → Nat`
(address to byte value).  The allocator itself writes payload bytes only in
`memcpy` inside `my_realloc`; header fields live in the `Block` metadata.
Under the address-order invariant (headers and payloads of distinct blocks
are disjoint) this separation is observationally faithful: a header update in
C never changes any block's payload bytes.

Machine arithmetic: all C values here are `size_t` (64 bit).  `ALIGN` is the
one place where the C expression can wrap (`size + 7` for `size` close to
`SIZE_MAX`), so it reduces modulo `2^64` exactly as the C macro does.  The
remaining size/address arithmetic is kept in plain `Nat`: by the arena
provider contract (§6 of the spec) the regions granted by `sbrk` are disjoint
subranges of the 64-bit address space, so the break, all block addresses and
all size sums stay below `2^64` and the C computations never wrap there.
-/

namespace Alloc

/-- The `#define ALIGNMENT 8` constant of `src/main.c`. -/
def ALIGNMENT : Nat := 8

/-- The value of `sizeof(block_t)` for the LP64 ABI the file targets (64-bit systems, per
its own comment): `size_t` (8 bytes) + `int` (4 bytes, padded to 8) +
pointer (8 bytes) = 24 bytes. -/
def BLOCK_SIZE : Nat := 24

/-- Modulus of `size_t` arithmetic (64 bit). -/
def W : Nat := 2 ^ 64

/-- The macro `#define ALIGN(size) (((size) + (ALIGNMENT-1)) & ~(ALIGNMENT-1))` from
`src/main.c`, in `size_t` arithmetic: `~(ALIGNMENT-1)` is the 64-bit mask
`2^64 - 8`, and the sum wraps modulo `2^64`. -/
def ALIGN (size : Nat) : Nat := ((size + (ALIGNMENT - 1)) % W) &&& (W - ALIGNMENT)

/-- One block of the ledger: header address, payload capacity (the C `size`
field) and occupancy flag (the C `free` field, `true` = free).  The C `next`
field is represented by list order in `Heap.blocks`. -/
structure Block where
  addr : Nat
  size : Nat
  free : Bool
deriving Repr, DecidableEq

/-- The allocator state: the chain reachable from the C global `head`
(in next-pointer order) together with the current program break. -/
structure Heap where
  blocks : List Block
  brk : Nat
deriving Repr, DecidableEq

/-- Byte store for payload contents: maps an address to the byte stored
there. -/
def Mem : Type := Nat → Nat

/-- Model of `memcpy(dst, src, n)`: the bytes at `[dst, dst+n)` become the bytes that
were at `[src, src+n)`; everything else is unchanged. -/
def memcpy (m : Mem) (dst src n : Nat) : Mem :=
  fun a => if dst ≤ a ∧ a < dst + n then m (src + (a - dst)) else m a

/-- Function `request_space` from `src/main.c`: `sbrk(0)` yields the current break,
`sbrk(BLOCK_SIZE + size)` extends the arena (refusal modelled by
`ok = false`), and on success the new block is initialised
(`size`, `free = 0`, `next = NULL`) and linked from `last`.  The only caller
passes as `last` either `NULL` (empty heap) or the final node of the chain
(the first-fit walk leaves `last` at the tail on a miss), so setting
`last->next = block` is appending the new block at the end of the chain. -/
def request_space (h : Heap) (ok : Bool) (size : Nat) : Option Block × Heap :=
  if ok then
    let block : Block := ⟨h.brk, size, false⟩
    (some block, ⟨h.blocks ++ [block], h.brk + (BLOCK_SIZE + size)⟩)
  else
    (none, h)

/-- Function `find_free_block_first_fit` from `src/main.c`: walk from `head`, stop at
the first block with `free && size >= requested`.  Returns the position of
the hit in the chain together with the block found there (`none` on a miss;
the C out-parameter `last` then holds the tail, which is how `request_space`
is called — see `request_space`). -/
def find_free_block_first_fit (size : Nat) : List Block → Option (Nat × Block)
  | [] => none
  | b :: rest =>
    if b.free ∧ size ≤ b.size then some (0, b)
    else (find_free_block_first_fit size rest).map (fun p => (p.1 + 1, p.2))

/-- The `SIZE_MAX` constant of `<stdint.h>` (64-bit `size_t`). -/
def SIZE_MAX : Nat := W - 1

/-- The loop of `find_free_block_best_fit` from `src/main.c`, one iteration
per chain node.  `j` is the position of `current` in the chain, `best` the
position of the best candidate so far (`NULL` = `none`), `best_size` its
size, `last` the position the C out-parameter `*last` currently holds.  Each
iteration mirrors the C body exactly: the candidate update
(`current->free && current->size >= size` and then
`current->size < best_size`), then `if (!best || current == best)
*last = current`, then `current = current->next`. -/
def bestFitGo (size : Nat) (l : List Block) (j : Nat) (best : Option Nat)
    (best_size : Nat) (last : Option Nat) : Option Nat × Option Nat :=
  match l with
  | [] => (best, last)
  | b :: rest =>
    let bp : Option Nat × Nat :=
      if b.free ∧ size ≤ b.size ∧ b.size < best_size then (some j, b.size)
      else (best, best_size)
    let last' : Option Nat :=
      if bp.1 = none ∨ bp.1 = some j then some j else last
    bestFitGo size rest (j + 1) bp.1 bp.2 last'

/-- Function `find_free_block_best_fit` from `src/main.c`: full scan from `head` with
`best = NULL`, `best_size = SIZE_MAX`, `*last = NULL`.  Returns the chain
positions of the returned best block and of the final value of `*last`. -/
def find_free_block_best_fit (size : Nat) (l : List Block) :
    Option Nat × Option Nat :=
  bestFitGo size l 0 none SIZE_MAX none

/-- Function `split_block` from `src/main.c`, as the segment of the chain that
replaces the block: if `block->size >= size + BLOCK_SIZE + ALIGNMENT`, the
block is shrunk to `size` and a new free block of the remaining capacity is
created at `(char*)(block + 1) + size` and spliced in as its successor;
otherwise the block is left whole. -/
def split_block (b : Block) (size : Nat) : List Block :=
  if size + BLOCK_SIZE + ALIGNMENT ≤ b.size then
    [⟨b.addr, size, b.free⟩,
     ⟨b.addr + BLOCK_SIZE + size, b.size - size - BLOCK_SIZE, true⟩]
  else
    [b]

/-- Apply `split_block` to the block at position `i` of the chain (the C
code splices the new block in via the `next` pointers; positionally that is
replacing the element by the one- or two-element segment). -/
def applySplit (i : Nat) (size : Nat) (l : List Block) : List Block :=
  match l, i with
  | [], _ => []
  | b :: rest, 0 => split_block b size ++ rest
  | b :: rest, i + 1 => b :: applySplit i size rest

/-- Set the `free` flag of the block at position `i` (the C writes
`block->free = 0` in `my_malloc` and `block->free = 1` in `my_free`). -/
def setFreeAt (i : Nat) (v : Bool) (l : List Block) : List Block :=
  match l, i with
  | [], _ => []
  | b :: rest, 0 => ⟨b.addr, b.size, v⟩ :: rest
  | b :: rest, i + 1 => b :: setFreeAt i v rest

/-- The `while (current && current->next)` loop of `coalesce` in
`src/main.c`, with the C `current` block held as the accumulator `cur` and
the chain after it as the list argument: if `current` and its successor are
both free, absorb the successor
(`current->size += BLOCK_SIZE + current->next->size`, unlink it) and
re-examine the same position; otherwise advance. -/
def coalesceFrom (cur : Block) : List Block → List Block
  | [] => [cur]
  | b2 :: rest =>
    if cur.free ∧ b2.free then
      coalesceFrom ⟨cur.addr, cur.size + (BLOCK_SIZE + b2.size), cur.free⟩ rest
    else
      cur :: coalesceFrom b2 rest

/-- Function `coalesce` from `src/main.c`: run the merge loop from `head`. -/
def coalesce : List Block → List Block
  | [] => []
  | b :: rest => coalesceFrom b rest

/-- Recover the block whose payload starts at `ptr` (the C
`get_block_ptr(ptr)` is `(block_t*)ptr - 1`, i.e. the header sits
`BLOCK_SIZE` bytes below the payload).  Returns its chain position and the
block, or `none` when `ptr` is not the payload address of any chain block
(in C that case is undefined behaviour; it is excluded from valid traces). -/
def findBlock (ptr : Nat) : List Block → Option (Nat × Block)
  | [] => none
  | b :: rest =>
    if b.addr + BLOCK_SIZE = ptr then some (0, b)
    else (findBlock ptr rest).map (fun p => (p.1 + 1, p.2))

/-- Function `my_malloc` from `src/main.c`.  `ok` is the arena provider's decision
for the (at most one) `sbrk` extension this call may perform.  Returns the
payload pointer (or `none`) and the new heap.  `size <= 0` for the unsigned
`size_t` argument means `size == 0`. -/
def my_malloc (h : Heap) (ok : Bool) (size0 : Nat) : Option Nat × Heap :=
  if size0 = 0 then
    (none, h)
  else
    -- `size = ALIGN(size)`: the aligned size, written out at each use below
    match h.blocks with
    | [] =>
      -- first allocation ever: request space and make the block `head`
      match request_space h ok (ALIGN size0) with
      | (none, h') => (none, h')
      | (some block, h') => (some (block.addr + BLOCK_SIZE), h')
    | _ :: _ =>
      match find_free_block_first_fit (ALIGN size0) h.blocks with
      | none =>
        -- no free block found: request more memory, linked from the tail
        match request_space h ok (ALIGN size0) with
        | (none, h') => (none, h')
        | (some block, h') => (some (block.addr + BLOCK_SIZE), h')
      | some (i, b) =>
        -- found a free block: split if too large, then mark it used
        (some (b.addr + BLOCK_SIZE),
         ⟨setFreeAt i false (applySplit i (ALIGN size0) h.blocks), h.brk⟩)

/-- Function `my_free` from `src/main.c`: no-op on `NULL`; otherwise recover the
header via `get_block_ptr`, mark the block free, and run a coalesce pass.
Passing a non-payload pointer is undefined behaviour in C; the model leaves
the heap unchanged in that case (valid traces never do it). -/
def my_free (h : Heap) (ptr : Nat) : Heap :=
  if ptr = 0 then h
  else
    match findBlock ptr h.blocks with
    | some (i, _) => ⟨coalesce (setFreeAt i true h.blocks), h.brk⟩
    | none => h

/-- Function `my_realloc` from `src/main.c`.  `NULL` pointer behaves as `my_malloc`;
`size == 0` behaves as `my_free`; a block whose capacity already covers
`size` is split in place (note: at the raw `size`, no realignment) and the
same pointer returned; otherwise allocate-copy-free.  The C code re-reads
`block->size` after the inner `my_malloc` for the `memcpy` length; that call
never modifies a block that is in use (it only splits a free block or
appends a fresh one — see `my_malloc_keeps_used_block`), so the value read
is `b.size` of the original lookup. -/
def my_realloc (h : Heap) (m : Mem) (ok : Bool) (ptr : Nat) (size : Nat) :
    Option Nat × Heap × Mem :=
  if ptr = 0 then
    match my_malloc h ok size with
    | (r, h') => (r, h', m)
  else if size = 0 then
    (none, my_free h ptr, m)
  else
    match findBlock ptr h.blocks with
    | none => (none, h, m)  -- undefined behaviour in C, excluded from traces
    | some (i, b) =>
      if size ≤ b.size then
        -- current block is large enough: split in place, same pointer
        (some ptr, ⟨applySplit i size h.blocks, h.brk⟩, m)
      else
        match my_malloc h ok size with
        | (none, h') => (none, h', m)
        | (some newPtr, h') =>
          (some newPtr, my_free h' ptr, memcpy m newPtr ptr b.size)

/-! ## The public API as a transition system

Traces of public-API calls from the empty heap.  Each `sbrk` decision is an
`ok` flag carried by the operation.  A trace is valid when every released or
reallocated pointer is `NULL` or the payload address of a currently used
block — exactly the pointers "previously returned by an allocation call and
not yet released", which is the caller obligation of §4.7/§7 of the spec
(violations are undefined behaviour and carry no claim). -/

/-- One public-API call, with the arena provider's decision for it. -/
inductive Op where
  | malloc (ok : Bool) (size : Nat)
  | mfree (ptr : Nat)
  | mrealloc (ok : Bool) (ptr : Nat) (size : Nat)
deriving Repr, DecidableEq

/-- Is `ptr` the payload address of a currently used chain block? -/
def isUsedPayload (h : Heap) (ptr : Nat) : Bool :=
  h.blocks.any (fun b => b.addr + BLOCK_SIZE == ptr && !b.free)

/-- Caller-obligation check for one call (see section comment). -/
def validOp (h : Heap) : Op → Bool
  | .malloc _ _ => true
  | .mfree ptr => ptr == 0 || isUsedPayload h ptr
  | .mrealloc _ ptr _ => ptr == 0 || isUsedPayload h ptr

/-- Run one call: result value and new state. -/
def runOp (s : Heap × Mem) : Op → Option Nat × Heap × Mem
  | .malloc ok size =>
    match my_malloc s.1 ok size with
    | (r, h') => (r, h', s.2)
  | .mfree ptr => (none, my_free s.1 ptr, s.2)
  | .mrealloc ok ptr size => my_realloc s.1 s.2 ok ptr size

/-- Run one call, keeping only the state. -/
def step (s : Heap × Mem) (op : Op) : Heap × Mem := (runOp s op).2

/-- Run a trace of calls. -/
def run (s : Heap × Mem) (ops : List Op) : Heap × Mem := ops.foldl step s

/-- Every call of the trace satisfies the caller obligation in the state it
executes in. -/
def okTrace : Heap × Mem → List Op → Bool
  | _, [] => true
  | s, op :: rest => validOp s.1 op && okTrace (step s op) rest

/-- The empty initial state: no blocks, program break `b0`, byte store
`m0`. -/
def init (b0 : Nat) (m0 : Mem) : Heap × Mem := (⟨[], b0⟩, m0)

/-- Trace condition for the amended size-alignment claim: the call is not a
`my_realloc` with a size that is not a multiple of the alignment
(`my_realloc`'s in-place path splits at the raw size without realigning). -/
def reallocAligned : Op → Bool
  | .mrealloc _ _ size => size % ALIGNMENT == 0
  | _ => true

/-! ## Ledger predicates -/

/-- List-adjacent blocks are memory-adjacent: each successor begins exactly
`BLOCK_SIZE + size` bytes after its predecessor begins (§3 invariant). -/
def chainAdj : List Block → Bool
  | [] => true
  | [_] => true
  | b1 :: b2 :: rest =>
    (b2.addr == b1.addr + BLOCK_SIZE + b1.size) && chainAdj (b2 :: rest)

/-- The chain is in strictly increasing address order. -/
def addrInc : List Block → Bool
  | [] => true
  | [_] => true
  | b1 :: b2 :: rest => (b1.addr < b2.addr : Bool) && addrInc (b2 :: rest)

/-- The break sits exactly at the end of the last block (so the next arena
extension lands adjacent to it).  Auxiliary strengthening that makes the §3
invariant inductive. -/
def brkOk (blocks : List Block) (brk : Nat) : Bool :=
  match blocks.getLast? with
  | none => true
  | some b => brk == b.addr + BLOCK_SIZE + b.size

/-- The inductive ledger invariant: adjacency plus break tracking. -/
def heapWf (h : Heap) : Bool := chainAdj h.blocks && brkOk h.blocks h.brk

/-- No two list-adjacent blocks are both free (§4.5 / §8). -/
def noAdjFree : List Block → Bool
  | [] => true
  | [_] => true
  | b1 :: b2 :: rest => !(b1.free && b2.free) && noAdjFree (b2 :: rest)

/-- Every block's `size` field is a multiple of the alignment (§3). -/
def sizesAligned (l : List Block) : Bool :=
  l.all (fun b => b.size % ALIGNMENT == 0)

/-- The first address past a block (header plus payload). -/
def blockEnd (b : Block) : Nat := b.addr + BLOCK_SIZE + b.size

/-! ## Unfolding equations for the chain predicates -/

theorem chainAdj_nil : chainAdj [] = true := rfl

theorem chainAdj_single (b : Block) : chainAdj [b] = true := rfl

theorem chainAdj_cons₂ (b1 b2 : Block) (t : List Block) :
    chainAdj (b1 :: b2 :: t) =
      ((b2.addr == b1.addr + BLOCK_SIZE + b1.size) && chainAdj (b2 :: t)) := rfl

theorem addrInc_nil : addrInc [] = true := rfl

theorem addrInc_single (b : Block) : addrInc [b] = true := rfl

theorem addrInc_cons₂ (b1 b2 : Block) (t : List Block) :
    addrInc (b1 :: b2 :: t) =
      ((decide (b1.addr < b2.addr)) && addrInc (b2 :: t)) := rfl

theorem noAdjFree_nil : noAdjFree [] = true := rfl

theorem noAdjFree_single (b : Block) : noAdjFree [b] = true := rfl

theorem noAdjFree_cons₂ (b1 b2 : Block) (t : List Block) :
    noAdjFree (b1 :: b2 :: t) =
      (!(b1.free && b2.free) && noAdjFree (b2 :: t)) := rfl

/-- A chain's tail is again a chain. -/
theorem chainAdj_tail {b : Block} {l : List Block} (h : chainAdj (b :: l) = true) :
    chainAdj l = true := by
  cases l with
  | nil => rfl
  | cons b2 t =>
    rw [chainAdj_cons₂] at h
    exact (Bool.and_eq_true_iff.mp h).2

/-- Adjacency gives strictly increasing addresses (the header is nonempty). -/
theorem addrInc_of_chainAdj : ∀ {l : List Block}, chainAdj l = true → addrInc l = true
  | [], _ => rfl
  | [_], _ => rfl
  | b1 :: b2 :: t, h => by
    rw [chainAdj_cons₂] at h
    obtain ⟨h1, h2⟩ := Bool.and_eq_true_iff.mp h
    rw [beq_iff_eq] at h1
    rw [addrInc_cons₂]
    refine Bool.and_eq_true_iff.mpr ⟨?_, addrInc_of_chainAdj h2⟩
    simp only [decide_eq_true_eq]
    unfold BLOCK_SIZE at h1
    omega

/-! ## The `ALIGN` macro -/

/-- The macro `ALIGN` always yields a multiple of the alignment: the mask
`~(ALIGNMENT-1)` clears the low three bits. -/
theorem ALIGN_mod_eq_zero (s : Nat) : ALIGN s % ALIGNMENT = 0 := by
  unfold ALIGN ALIGNMENT W
  set x : Nat := (s + (8 - 1)) % 2 ^ 64 with hx
  have h1 : (x &&& (2 ^ 64 - 8)) &&& (2 ^ 3 - 1) = (x &&& (2 ^ 64 - 8)) % 2 ^ 3 :=
    Nat.and_pow_two_sub_one_eq_mod _ 3
  have h2 : (x &&& (2 ^ 64 - 8)) &&& (2 ^ 3 - 1) = x &&& ((2 ^ 64 - 8) &&& (2 ^ 3 - 1)) :=
    Nat.and_assoc ..
  have h3 : ((2 : Nat) ^ 64 - 8) &&& (2 ^ 3 - 1) = 0 := by decide
  rw [h3, Nat.and_zero] at h2
  omega

/-! ## Block lookup -/

/-- A successful lookup returns a block whose payload starts at `ptr`. -/
theorem findBlock_addr :
    ∀ {l : List Block} {ptr i : Nat} {b : Block},
      findBlock ptr l = some (i, b) → b.addr + BLOCK_SIZE = ptr
  | [], _, _, _, h => by simp [findBlock] at h
  | x :: rest, ptr, i, b, h => by
    simp only [findBlock] at h
    split at h
    next hc =>
      cases h
      exact hc
    next =>
      cases hr : findBlock ptr rest with
      | none => rw [hr] at h; simp at h
      | some p =>
        obtain ⟨j, c⟩ := p
        rw [hr] at h
        simp only [Option.map_some', Option.some.injEq, Prod.mk.injEq] at h
        obtain ⟨h1, h2⟩ := h
        subst h2
        exact findBlock_addr hr

/-- A successful lookup returns the block stored at the returned position. -/
theorem findBlock_get :
    ∀ {l : List Block} {ptr i : Nat} {b : Block},
      findBlock ptr l = some (i, b) → l.get? i = some b
  | [], _, _, _, h => by simp [findBlock] at h
  | x :: rest, ptr, i, b, h => by
    simp only [findBlock] at h
    split at h
    next =>
      cases h
      rfl
    next =>
      cases hr : findBlock ptr rest with
      | none => rw [hr] at h; simp at h
      | some p =>
        obtain ⟨j, c⟩ := p
        rw [hr] at h
        simp only [Option.map_some', Option.some.injEq, Prod.mk.injEq] at h
        obtain ⟨h1, h2⟩ := h
        subst h1
        subst h2
        simpa [List.get?_cons_succ] using findBlock_get hr

/-! ## First-fit search -/

/-- A first-fit hit is a free block, at the returned position, with enough
capacity. -/
theorem firstFit_sound :
    ∀ {l : List Block} {size i : Nat} {b : Block},
      find_free_block_first_fit size l = some (i, b) →
      l.get? i = some b ∧ b.free = true ∧ size ≤ b.size
  | [], _, _, _, h => by simp [find_free_block_first_fit] at h
  | x :: rest, size, i, b, h => by
    simp only [find_free_block_first_fit] at h
    split at h
    next hc =>
      cases h
      exact ⟨rfl, hc.1, hc.2⟩
    next =>
      cases hr : find_free_block_first_fit size rest with
      | none => rw [hr] at h; simp at h
      | some p =>
        obtain ⟨j, c⟩ := p
        rw [hr] at h
        simp only [Option.map_some', Option.some.injEq, Prod.mk.injEq] at h
        obtain ⟨h1, h2⟩ := h
        subst h1
        subst h2
        obtain ⟨hg, hf, hs⟩ := firstFit_sound hr
        exact ⟨by simpa [List.get?_cons_succ] using hg, hf, hs⟩

/-! ## Structural lemmas: split, flag update, append -/

/-- Splitting keeps the head's address (only its capacity can shrink). -/
theorem applySplit_cons_head (i s : Nat) (r : Block) (t : List Block) :
    ∃ y t', applySplit i s (r :: t) = y :: t' ∧ y.addr = r.addr := by
  cases i with
  | zero =>
    simp only [applySplit]
    unfold split_block
    split
    · exact ⟨_, _, rfl, rfl⟩
    · exact ⟨_, _, rfl, rfl⟩
  | succ i => exact ⟨r, _, rfl, rfl⟩

/-- Splitting a chain block preserves adjacency: the carved block starts
right after the shrunk payload and ends where the old block ended. -/
theorem applySplit_chainAdj :
    ∀ (l : List Block) (i s : Nat), chainAdj l = true →
      chainAdj (applySplit i s l) = true
  | [], _, _, _ => by simp [applySplit, chainAdj]
  | b :: rest, 0, s, h => by
    show chainAdj (split_block b s ++ rest) = true
    unfold split_block
    split
    next hc =>
      cases rest with
      | nil =>
        rw [List.cons_append, List.cons_append, List.nil_append, chainAdj_cons₂]
        refine Bool.and_eq_true_iff.mpr ⟨by rw [beq_iff_eq], chainAdj_single _⟩
      | cons r t =>
        rw [chainAdj_cons₂] at h
        obtain ⟨h1, h2⟩ := Bool.and_eq_true_iff.mp h
        rw [beq_iff_eq] at h1
        rw [List.cons_append, List.cons_append, List.nil_append, chainAdj_cons₂]
        refine Bool.and_eq_true_iff.mpr ⟨by rw [beq_iff_eq], ?_⟩
        rw [chainAdj_cons₂]
        refine Bool.and_eq_true_iff.mpr ⟨?_, h2⟩
        rw [beq_iff_eq]
        show r.addr = b.addr + BLOCK_SIZE + s + BLOCK_SIZE + (b.size - s - BLOCK_SIZE)
        unfold BLOCK_SIZE ALIGNMENT at *
        omega
    next =>
      simpa using h
  | b :: rest, i + 1, s, h => by
    show chainAdj (b :: applySplit i s rest) = true
    cases rest with
    | nil => simp [applySplit, chainAdj]
    | cons r t =>
      rw [chainAdj_cons₂] at h
      obtain ⟨h1, h2⟩ := Bool.and_eq_true_iff.mp h
      rw [beq_iff_eq] at h1
      obtain ⟨y, t', heq, haddr⟩ := applySplit_cons_head i s r t
      rw [heq, chainAdj_cons₂]
      refine Bool.and_eq_true_iff.mpr ⟨by rw [beq_iff_eq, haddr, h1], ?_⟩
      rw [← heq]
      exact applySplit_chainAdj (r :: t) i s h2

/-- Splitting does not move the end of the chain's last block. -/
theorem applySplit_getLast_end :
    ∀ (l : List Block) (i s : Nat),
      ((applySplit i s l).getLast?).map blockEnd = (l.getLast?).map blockEnd
  | [], _, _ => by simp [applySplit]
  | b :: rest, 0, s => by
    show ((split_block b s ++ rest).getLast?).map blockEnd = _
    unfold split_block
    split
    next hc =>
      cases rest with
      | nil =>
        simp only [List.cons_append, List.nil_append, List.getLast?_cons_cons,
          List.getLast?_singleton, Option.map_some', Option.some.injEq, blockEnd]
        unfold BLOCK_SIZE ALIGNMENT at *
        omega
      | cons r t =>
        rw [List.cons_append, List.cons_append, List.nil_append]
        rw [List.getLast?_cons_cons, List.getLast?_cons_cons, List.getLast?_cons_cons]
    next => rfl
  | b :: rest, i + 1, s => by
    show ((b :: applySplit i s rest).getLast?).map blockEnd = _
    cases rest with
    | nil => simp [applySplit]
    | cons r t =>
      obtain ⟨y, t', heq, _⟩ := applySplit_cons_head i s r t
      rw [heq, List.getLast?_cons_cons, ← heq, List.getLast?_cons_cons]
      exact applySplit_getLast_end (r :: t) i s

/-- Flag updates keep the head's address and capacity. -/
theorem setFreeAt_cons_head (i : Nat) (v : Bool) (r : Block) (t : List Block) :
    ∃ y t', setFreeAt i v (r :: t) = y :: t' ∧ y.addr = r.addr ∧ y.size = r.size := by
  cases i with
  | zero => exact ⟨_, _, rfl, rfl, rfl⟩
  | succ i => exact ⟨r, _, rfl, rfl, rfl⟩

/-- Flag updates do not affect adjacency. -/
theorem setFreeAt_chainAdj :
    ∀ (l : List Block) (i : Nat) (v : Bool), chainAdj l = true →
      chainAdj (setFreeAt i v l) = true
  | [], _, _, _ => by simp [setFreeAt, chainAdj]
  | b :: rest, 0, v, h => by
    show chainAdj (⟨b.addr, b.size, v⟩ :: rest) = true
    cases rest with
    | nil => rfl
    | cons r t =>
      rw [chainAdj_cons₂] at h ⊢
      simpa using h
  | b :: rest, i + 1, v, h => by
    show chainAdj (b :: setFreeAt i v rest) = true
    cases rest with
    | nil => simp [setFreeAt, chainAdj]
    | cons r t =>
      rw [chainAdj_cons₂] at h
      obtain ⟨h1, h2⟩ := Bool.and_eq_true_iff.mp h
      obtain ⟨y, t', heq, ha, hs⟩ := setFreeAt_cons_head i v r t
      rw [heq, chainAdj_cons₂]
      refine Bool.and_eq_true_iff.mpr ⟨by rw [beq_iff_eq] at h1 ⊢; rw [ha]; exact h1, ?_⟩
      rw [← heq]
      exact setFreeAt_chainAdj (r :: t) i v h2

/-- Flag updates do not move the end of the chain's last block. -/
theorem setFreeAt_getLast_end :
    ∀ (l : List Block) (i : Nat) (v : Bool),
      ((setFreeAt i v l).getLast?).map blockEnd = (l.getLast?).map blockEnd
  | [], _, _ => by simp [setFreeAt]
  | b :: rest, 0, v => by
    show ((⟨b.addr, b.size, v⟩ :: rest).getLast?).map blockEnd = _
    cases rest with
    | nil => simp [blockEnd]
    | cons r t => rw [List.getLast?_cons_cons, List.getLast?_cons_cons]
  | b :: rest, i + 1, v => by
    show ((b :: setFreeAt i v rest).getLast?).map blockEnd = _
    cases rest with
    | nil => simp [setFreeAt]
    | cons r t =>
      obtain ⟨y, t', heq, _, _⟩ := setFreeAt_cons_head i v r t
      rw [heq, List.getLast?_cons_cons, ← heq, List.getLast?_cons_cons]
      exact setFreeAt_getLast_end (r :: t) i v

/-- Appending a block at the break keeps adjacency, provided the break sits
at the end of the last block. -/
theorem chainAdj_append_block :
    ∀ (l : List Block) (c : Block), chainAdj l = true →
      (∀ b, l.getLast? = some b → c.addr = blockEnd b) →
      chainAdj (l ++ [c]) = true
  | [], c, _, _ => rfl
  | [b], c, _, hend => by
    simp only [List.cons_append, List.nil_append, chainAdj_cons₂, chainAdj_single,
      Bool.and_true, beq_iff_eq]
    rw [hend b rfl]
    rfl
  | b :: r :: t, c, h, hend => by
    rw [chainAdj_cons₂] at h
    obtain ⟨h1, h2⟩ := Bool.and_eq_true_iff.mp h
    have ih := chainAdj_append_block (r :: t) c h2
      (fun x hx => hend x (by rw [List.getLast?_cons_cons]; exact hx))
    rw [List.cons_append, List.cons_append, chainAdj_cons₂]
    refine Bool.and_eq_true_iff.mpr ⟨h1, ?_⟩
    rw [← List.cons_append]
    exact ih

/-! ## Coalesce lemmas -/

/-- The merge loop keeps the address and flag of its current block at the
head of its output (merging only grows the current block's size). -/
theorem coalesceFrom_head :
    ∀ (l : List Block) (cur : Block),
      ∃ y t, coalesceFrom cur l = y :: t ∧ y.addr = cur.addr ∧ y.free = cur.free
  | [], cur => ⟨cur, [], rfl, rfl, rfl⟩
  | b2 :: rest, cur => by
    simp only [coalesceFrom]
    split
    next hc =>
      obtain ⟨y, t, heq, ha, hf⟩ :=
        coalesceFrom_head rest ⟨cur.addr, cur.size + (BLOCK_SIZE + b2.size), cur.free⟩
      exact ⟨y, t, heq, ha, hf⟩
    next => exact ⟨cur, _, rfl, rfl, rfl⟩

/-- The merge loop preserves adjacency: a merged block covers exactly the
span of the two blocks it absorbs. -/
theorem coalesceFrom_chainAdj :
    ∀ (l : List Block) (cur : Block), chainAdj (cur :: l) = true →
      chainAdj (coalesceFrom cur l) = true
  | [], cur, _ => rfl
  | b2 :: rest, cur, h => by
    rw [chainAdj_cons₂] at h
    obtain ⟨h1, h2⟩ := Bool.and_eq_true_iff.mp h
    rw [beq_iff_eq] at h1
    simp only [coalesceFrom]
    split
    next hc =>
      refine coalesceFrom_chainAdj rest _ ?_
      cases rest with
      | nil => rfl
      | cons r t =>
        rw [chainAdj_cons₂] at h2
        obtain ⟨h3, h4⟩ := Bool.and_eq_true_iff.mp h2
        rw [beq_iff_eq] at h3
        rw [chainAdj_cons₂]
        refine Bool.and_eq_true_iff.mpr ⟨?_, h4⟩
        rw [beq_iff_eq]
        show r.addr = cur.addr + BLOCK_SIZE + (cur.size + (BLOCK_SIZE + b2.size))
        omega
    next =>
      obtain ⟨y, t, heq, ha, _⟩ := coalesceFrom_head rest b2
      rw [heq, chainAdj_cons₂]
      refine Bool.and_eq_true_iff.mpr ⟨by rw [beq_iff_eq, ha, h1], ?_⟩
      rw [← heq]
      exact coalesceFrom_chainAdj rest b2 h2

/-- The merge loop does not move the end of the chain's last block
(a merged block ends exactly where the absorbed successor ended). -/
theorem coalesceFrom_getLast_end :
    ∀ (l : List Block) (cur : Block), chainAdj (cur :: l) = true →
      ((coalesceFrom cur l).getLast?).map blockEnd = ((cur :: l).getLast?).map blockEnd
  | [], cur, _ => rfl
  | b2 :: rest, cur, h => by
    rw [chainAdj_cons₂] at h
    obtain ⟨h1, h2⟩ := Bool.and_eq_true_iff.mp h
    rw [beq_iff_eq] at h1
    simp only [coalesceFrom]
    split
    next hc =>
      have hadj : chainAdj (⟨cur.addr, cur.size + (BLOCK_SIZE + b2.size), cur.free⟩ :: rest)
          = true := by
        cases rest with
        | nil => rfl
        | cons r t =>
          rw [chainAdj_cons₂] at h2
          obtain ⟨h3, h4⟩ := Bool.and_eq_true_iff.mp h2
          rw [beq_iff_eq] at h3
          rw [chainAdj_cons₂]
          refine Bool.and_eq_true_iff.mpr ⟨?_, h4⟩
          rw [beq_iff_eq]
          show r.addr = cur.addr + BLOCK_SIZE + (cur.size + (BLOCK_SIZE + b2.size))
          omega
      rw [coalesceFrom_getLast_end rest _ hadj]
      cases rest with
      | nil =>
        simp only [List.getLast?_singleton, List.getLast?_cons_cons, Option.map_some',
          Option.some.injEq, blockEnd]
        show cur.addr + BLOCK_SIZE + (cur.size + (BLOCK_SIZE + b2.size))
            = b2.addr + BLOCK_SIZE + b2.size
        omega
      | cons r t =>
        rw [List.getLast?_cons_cons, List.getLast?_cons_cons, List.getLast?_cons_cons]
    next =>
      obtain ⟨y, t, heq, _, _⟩ := coalesceFrom_head rest b2
      rw [heq, List.getLast?_cons_cons, ← heq, coalesceFrom_getLast_end rest b2 h2,
        List.getLast?_cons_cons]

/-- The merge loop's output never has two adjacent free blocks: the loop
only advances past the current block when the pair is not both-free. -/
theorem coalesceFrom_noAdjFree :
    ∀ (l : List Block) (cur : Block), noAdjFree (coalesceFrom cur l) = true
  | [], cur => rfl
  | b2 :: rest, cur => by
    simp only [coalesceFrom]
    split
    next hc => exact coalesceFrom_noAdjFree rest _
    next hc =>
      obtain ⟨y, t, heq, _, hf⟩ := coalesceFrom_head rest b2
      rw [heq, noAdjFree_cons₂]
      refine Bool.and_eq_true_iff.mpr ⟨?_, by rw [← heq]; exact coalesceFrom_noAdjFree rest b2⟩
      rw [hf]
      simp only [Bool.not_and] at hc ⊢
      cases hcur : cur.free with
      | false => rfl
      | true =>
        cases hb2 : b2.free with
        | false => rfl
        | true => exact absurd ⟨hcur, hb2⟩ hc

/-- Used blocks pass through the merge loop untouched. -/
theorem coalesceFrom_used_mem :
    ∀ (l : List Block) (cur c : Block), c ∈ cur :: l → c.free = false →
      c ∈ coalesceFrom cur l
  | [], cur, c, hm, _ => by simpa [coalesceFrom] using hm
  | b2 :: rest, cur, c, hm, hu => by
    simp only [coalesceFrom]
    split
    next hc =>
      refine coalesceFrom_used_mem rest _ c ?_ hu
      rcases List.mem_cons.mp hm with h | hm2
      · exact absurd (h ▸ hu) (by rw [hc.1]; simp)
      · rcases List.mem_cons.mp hm2 with h | hm3
        · exact absurd (h ▸ hu) (by rw [hc.2]; simp)
        · exact List.mem_cons_of_mem _ hm3
    next =>
      rcases List.mem_cons.mp hm with h | hm2
      · exact h ▸ List.mem_cons_self _ _
      · exact List.mem_cons_of_mem _ (coalesceFrom_used_mem rest b2 c hm2 hu)

/-- The merge loop creates no used blocks: every used block of the output
was a block of the input. -/
theorem coalesceFrom_used_mem_rev :
    ∀ (l : List Block) (cur c : Block), c ∈ coalesceFrom cur l → c.free = false →
      c ∈ cur :: l
  | [], cur, c, hm, _ => by simpa [coalesceFrom] using hm
  | b2 :: rest, cur, c, hm, hu => by
    simp only [coalesceFrom] at hm
    split at hm
    next hc =>
      have := coalesceFrom_used_mem_rev rest _ c hm hu
      rcases List.mem_cons.mp this with h | hm2
      · exact absurd (h ▸ hu) (by rw [hc.1]; simp)
      · exact List.mem_cons_of_mem _ (List.mem_cons_of_mem _ hm2)
    next =>
      rcases List.mem_cons.mp hm with h | hm2
      · exact h ▸ List.mem_cons_self _ _
      · exact List.mem_cons_of_mem _ (coalesceFrom_used_mem_rev rest b2 c hm2 hu)

theorem coalesce_chainAdj {l : List Block} (h : chainAdj l = true) :
    chainAdj (coalesce l) = true := by
  cases l with
  | nil => rfl
  | cons b rest => exact coalesceFrom_chainAdj rest b h

theorem coalesce_getLast_end {l : List Block} (h : chainAdj l = true) :
    ((coalesce l).getLast?).map blockEnd = (l.getLast?).map blockEnd := by
  cases l with
  | nil => rfl
  | cons b rest => exact coalesceFrom_getLast_end rest b h

theorem coalesce_noAdjFree (l : List Block) : noAdjFree (coalesce l) = true := by
  cases l with
  | nil => rfl
  | cons b rest => exact coalesceFrom_noAdjFree rest b

theorem coalesce_used_mem {l : List Block} {c : Block} (hm : c ∈ l)
    (hu : c.free = false) : c ∈ coalesce l := by
  cases l with
  | nil => cases hm
  | cons b rest => exact coalesceFrom_used_mem rest b c hm hu

theorem coalesce_used_mem_rev {l : List Block} {c : Block} (hm : c ∈ coalesce l)
    (hu : c.free = false) : c ∈ l := by
  cases l with
  | nil => simp [coalesce] at hm
  | cons b rest => exact coalesceFrom_used_mem_rev rest b c hm hu

/-! ## Preservation of the ledger invariant by the three API operations -/

/-- Transfer `brkOk` along equal end addresses. -/
theorem brkOk_of_end_eq {l l' : List Block} {brk : Nat}
    (hend : (l'.getLast?).map blockEnd = (l.getLast?).map blockEnd)
    (h : brkOk l brk = true) : brkOk l' brk = true := by
  unfold brkOk at h ⊢
  cases hl' : l'.getLast? with
  | none => rfl
  | some b' =>
    rw [hl'] at hend
    cases hl : l.getLast? with
    | none => rw [hl] at hend; simp at hend
    | some b =>
      rw [hl] at hend
      rw [hl] at h
      simp only [Option.map_some', Option.some.injEq] at hend
      rw [beq_iff_eq] at h ⊢
      unfold blockEnd at hend
      omega

/-- Extending the chain exactly at the break re-establishes `brkOk`. -/
theorem brkOk_append (l : List Block) (brk s : Nat) :
    brkOk (l ++ [⟨brk, s, false⟩]) (brk + (BLOCK_SIZE + s)) = true := by
  unfold brkOk
  rw [List.getLast?_concat]
  rw [beq_iff_eq]
  show brk + (BLOCK_SIZE + s) = brk + BLOCK_SIZE + s
  omega

theorem my_malloc_wf (h : Heap) (ok : Bool) (s : Nat) (hwf : heapWf h = true) :
    heapWf (my_malloc h ok s).2 = true := by
  obtain ⟨hadj, hbrk⟩ := Bool.and_eq_true_iff.mp hwf
  unfold my_malloc request_space
  split
  next => exact hwf
  next =>
    split
    next hbl =>
      cases ok with
      | false => exact hwf
      | true =>
        simp only [if_true]
        unfold heapWf
        refine Bool.and_eq_true_iff.mpr ⟨?_, ?_⟩
        · rw [hbl]
          rfl
        · rw [hbl]
          exact brkOk_append [] h.brk (ALIGN s)
    next b0 t0 hbl =>
      cases hff : find_free_block_first_fit (ALIGN s) h.blocks with
      | none =>
        cases ok with
        | false => exact hwf
        | true =>
          simp only [if_true]
          unfold heapWf
          refine Bool.and_eq_true_iff.mpr ⟨?_, ?_⟩
          · refine chainAdj_append_block h.blocks _ hadj ?_
            intro b hb
            unfold brkOk at hbrk
            rw [hb, beq_iff_eq] at hbrk
            exact hbrk
          · exact brkOk_append h.blocks h.brk (ALIGN s)
      | some p =>
        obtain ⟨i, b⟩ := p
        unfold heapWf
        refine Bool.and_eq_true_iff.mpr ⟨?_, ?_⟩
        · exact setFreeAt_chainAdj _ i false (applySplit_chainAdj h.blocks i (ALIGN s) hadj)
        · refine brkOk_of_end_eq ?_ hbrk
          rw [setFreeAt_getLast_end, applySplit_getLast_end]

theorem my_free_wf (h : Heap) (ptr : Nat) (hwf : heapWf h = true) :
    heapWf (my_free h ptr) = true := by
  obtain ⟨hadj, hbrk⟩ := Bool.and_eq_true_iff.mp hwf
  unfold my_free
  split
  next => exact hwf
  next =>
    cases hfb : findBlock ptr h.blocks with
    | none => exact hwf
    | some p =>
      obtain ⟨i, b⟩ := p
      unfold heapWf
      refine Bool.and_eq_true_iff.mpr ⟨?_, ?_⟩
      · exact coalesce_chainAdj (setFreeAt_chainAdj _ i true hadj)
      · refine brkOk_of_end_eq ?_ hbrk
        rw [coalesce_getLast_end (setFreeAt_chainAdj _ i true hadj), setFreeAt_getLast_end]

theorem my_realloc_wf (h : Heap) (m : Mem) (ok : Bool) (ptr size : Nat)
    (hwf : heapWf h = true) : heapWf (my_realloc h m ok ptr size).2.1 = true := by
  obtain ⟨hadj, hbrk⟩ := Bool.and_eq_true_iff.mp hwf
  unfold my_realloc
  split
  next =>
    have hres := my_malloc_wf h ok size hwf
    cases hmm : my_malloc h ok size with
    | mk r h' =>
      rw [hmm] at hres
      exact hres
  next =>
    split
    next => exact my_free_wf h ptr hwf
    next =>
      cases hfb : findBlock ptr h.blocks with
      | none => exact hwf
      | some p =>
        obtain ⟨i, b⟩ := p
        dsimp only
        split
        next =>
          unfold heapWf
          refine Bool.and_eq_true_iff.mpr ⟨applySplit_chainAdj h.blocks i size hadj, ?_⟩
          refine brkOk_of_end_eq ?_ hbrk
          rw [applySplit_getLast_end]
        next =>
          have hres := my_malloc_wf h ok size hwf
          cases hmm : my_malloc h ok size with
          | mk r h' =>
            rw [hmm] at hres
            cases r with
            | none => exact hres
            | some newPtr => exact my_free_wf h' ptr hres

/-- One public-API call preserves the inductive ledger invariant. -/
theorem step_wf (s : Heap × Mem) (op : Op) (hwf : heapWf s.1 = true) :
    heapWf (step s op).1 = true := by
  cases op with
  | malloc ok size =>
    have hres := my_malloc_wf s.1 ok size hwf
    show heapWf (runOp s (.malloc ok size)).2.1 = true
    unfold runOp
    dsimp only
    cases hmm : my_malloc s.1 ok size with
    | mk r h' =>
      rw [hmm] at hres
      exact hres
  | mfree ptr => exact my_free_wf s.1 ptr hwf
  | mrealloc ok ptr size => exact my_realloc_wf s.1 s.2 ok ptr size hwf

/-- Every state reachable from the empty heap through the public API
satisfies the inductive ledger invariant (so the invariant hypotheses of the
frame and preservation theorems hold in every reachable state). -/
theorem run_heapWf (b0 : Nat) (m0 : Mem) (ops : List Op) :
    heapWf (run (init b0 m0) ops).1 = true := by
  suffices hgen : ∀ (ops : List Op) (s : Heap × Mem), heapWf s.1 = true →
      heapWf (run s ops).1 = true by
    exact hgen ops (init b0 m0) rfl
  intro ops
  induction ops with
  | nil => intro s h; exact h
  | cons op rest ih =>
    intro s h
    exact ih (step s op) (step_wf s op h)

/-- When `my_malloc` returns the failure indicator, the heap is exactly as
it was: the failure paths never link, split, or mark anything. -/
theorem my_malloc_none_frame (h : Heap) (ok : Bool) (s : Nat)
    (hn : (my_malloc h ok s).1 = none) : (my_malloc h ok s).2 = h := by
  by_cases hs : s = 0
  · simp [my_malloc, hs]
  · cases hbl : h.blocks with
    | nil =>
      cases ok with
      | false => simp [my_malloc, hs, hbl, request_space]
      | true => simp [my_malloc, hs, hbl, request_space] at hn
    | cons b0 t0 =>
      cases hff : find_free_block_first_fit (ALIGN s) (b0 :: t0) with
      | none =>
        cases ok with
        | false => simp [my_malloc, hs, hbl, hff, request_space]
        | true => simp [my_malloc, hs, hbl, hff, request_space] at hn
      | some p =>
        obtain ⟨i, b⟩ := p
        simp [my_malloc, hs, hbl, hff] at hn

/-! ## Claim theorems -/

/-- C1. Every public API operation (`my_malloc`, `my_free`, `my_realloc`),
invoked under the caller obligation, preserves the ledger invariant: the
chain from `head` stays in strictly increasing address order and every
list-adjacent pair is memory-adjacent (the second block begins exactly
`BLOCK_SIZE + size` bytes after the first).  The invariant is strengthened
with break tracking (`heapWf` = adjacency + the break sits at the end of the
last block), which is what makes it inductive: arena extensions land exactly
at the break. -/
theorem public_api_preserves_ledger_invariant (s : Heap × Mem) (op : Op)
    (_hv : validOp s.1 op = true) (hwf : heapWf s.1 = true) :
    heapWf (step s op).1 = true ∧ chainAdj (step s op).1.blocks = true ∧
      addrInc (step s op).1.blocks = true := by
  have hwf' : heapWf (step s op).1 = true := step_wf s op hwf
  have hadj := (Bool.and_eq_true_iff.mp hwf').1
  exact ⟨hwf', hadj, addrInc_of_chainAdj hadj⟩

theorem public_api_preserves_ledger_invariant_witness :
    validOp (⟨[], 0⟩ : Heap) (.malloc true 8) = true ∧
      heapWf (⟨[], 0⟩ : Heap) = true ∧
      (heapWf (step (⟨[], 0⟩, fun _ => 0) (.malloc true 8)).1 = true ∧
        chainAdj (step (⟨[], 0⟩, fun _ => 0) (.malloc true 8)).1.blocks = true ∧
        addrInc (step (⟨[], 0⟩, fun _ => 0) (.malloc true 8)).1.blocks = true) :=
  ⟨by decide, by decide,
    public_api_preserves_ledger_invariant (⟨[], 0⟩, fun _ => 0) (.malloc true 8)
      (by decide) (by decide)⟩

/-- C2. Immediately after `my_free p` returns, for `p` the payload address
of a chain block (which every pointer previously returned by an allocation
call and not yet released is), no two list-adjacent blocks are both free:
the single coalesce pass collapses every run of adjacent free blocks. -/
theorem my_free_no_adjacent_free_blocks (h : Heap) (ptr i : Nat) (b : Block)
    (hfb : findBlock ptr h.blocks = some (i, b)) :
    noAdjFree (my_free h ptr).blocks = true := by
  have haddr := findBlock_addr hfb
  have hptr : ptr ≠ 0 := by unfold BLOCK_SIZE at haddr; omega
  unfold my_free
  rw [if_neg hptr, hfb]
  exact coalesce_noAdjFree _

theorem my_free_no_adjacent_free_blocks_witness :
    findBlock 24 [(⟨0, 8, false⟩ : Block), ⟨32, 8, true⟩] = some (0, ⟨0, 8, false⟩) ∧
      noAdjFree (my_free ⟨[⟨0, 8, false⟩, ⟨32, 8, true⟩], 64⟩ 24).blocks = true :=
  ⟨by decide,
    my_free_no_adjacent_free_blocks ⟨[⟨0, 8, false⟩, ⟨32, 8, true⟩], 64⟩ 24 0
      ⟨0, 8, false⟩ (by decide)⟩

/-- C6. `split_block` on a block of capacity `C` with request `r`: when
`C - r - BLOCK_SIZE ≥ ALIGNMENT`, the block is shrunk to `r`, its new
successor is a free block of size `C - r - BLOCK_SIZE` positioned at the old
payload start plus `r`, and the two sizes plus one header sum to `C`;
when `C - r - BLOCK_SIZE < ALIGNMENT` the block is left whole. -/
theorem split_block_correct (b : Block) (r : Nat) :
    (ALIGNMENT ≤ b.size - r - BLOCK_SIZE →
      split_block b r =
        [⟨b.addr, r, b.free⟩,
         ⟨(b.addr + BLOCK_SIZE) + r, b.size - r - BLOCK_SIZE, true⟩] ∧
      r + (b.size - r - BLOCK_SIZE) + BLOCK_SIZE = b.size) ∧
    (b.size - r - BLOCK_SIZE < ALIGNMENT → split_block b r = [b]) := by
  unfold split_block BLOCK_SIZE ALIGNMENT
  constructor
  · intro hge
    rw [if_pos (by omega)]
    refine ⟨?_, by omega⟩
    have : b.addr + 24 + r = b.addr + (24 + r) := by omega
    rw [this]
  · intro hlt
    rw [if_neg (by omega)]

theorem split_block_correct_witness :
    ALIGNMENT ≤ 64 - 8 - BLOCK_SIZE ∧
      (split_block ⟨0, 64, true⟩ 8 =
          [⟨0, 8, true⟩, ⟨(0 + BLOCK_SIZE) + 8, 64 - 8 - BLOCK_SIZE, true⟩] ∧
        8 + (64 - 8 - BLOCK_SIZE) + BLOCK_SIZE = 64) :=
  ⟨by decide, (split_block_correct ⟨0, 64, true⟩ 8).1 (by decide)⟩

/-- C7. If the arena provider refuses the extension reached during
`my_malloc` (no free block satisfies the aligned request, so the call falls
through to `request_space` and `sbrk` refuses), the call returns the failure
indicator and the entire state — head chain, every block, the break, and all
payload bytes — is exactly as before. -/
theorem my_malloc_sbrk_refusal_frame (h : Heap) (m : Mem) (size : Nat)
    (hmiss : find_free_block_first_fit (ALIGN size) h.blocks = none) :
    runOp (h, m) (.malloc false size) = (none, h, m) := by
  unfold runOp
  dsimp only
  by_cases hs : size = 0
  · simp [my_malloc, hs]
  · cases hbl : h.blocks with
    | nil =>
      have hml : my_malloc h false size = (none, h) := by
        simp [my_malloc, hs, hbl, request_space]
      rw [hml]
    | cons b0 t0 =>
      rw [show h.blocks = b0 :: t0 from hbl] at hmiss
      have hml : my_malloc h false size = (none, h) := by
        simp [my_malloc, hs, hbl, hmiss, request_space]
      rw [hml]

theorem my_malloc_sbrk_refusal_frame_witness :
    find_free_block_first_fit (ALIGN 8) [(⟨0, 8, false⟩ : Block)] = none ∧
      runOp (⟨[⟨0, 8, false⟩], 32⟩, fun _ => 0) (.malloc false 8) =
        (none, ⟨[⟨0, 8, false⟩], 32⟩, fun _ => 0) :=
  ⟨by decide,
    my_malloc_sbrk_refusal_frame ⟨[⟨0, 8, false⟩], 32⟩ (fun _ => 0) 8 (by decide)⟩

/-- C8. If `p` is the payload of a used block whose capacity is smaller than
the requested size and the inner allocation of `my_realloc p size` fails,
the call returns the failure indicator and the state is exactly as before:
the block stays used, in the chain, with unchanged size and payload. -/
theorem my_realloc_grow_failure_frame (h : Heap) (m : Mem) (ok : Bool)
    (ptr size i : Nat) (b : Block)
    (hfb : findBlock ptr h.blocks = some (i, b)) (_hused : b.free = false)
    (hgrow : b.size < size) (hfail : (my_malloc h ok size).1 = none) :
    my_realloc h m ok ptr size = (none, h, m) := by
  have haddr := findBlock_addr hfb
  have hptr : ptr ≠ 0 := by unfold BLOCK_SIZE at haddr; omega
  have hsz : size ≠ 0 := by omega
  have hfr := my_malloc_none_frame h ok size hfail
  unfold my_realloc
  rw [if_neg hptr, if_neg hsz, hfb]
  dsimp only
  rw [if_neg (by omega : ¬ size ≤ b.size)]
  cases hmm : my_malloc h ok size with
  | mk r h' =>
    rw [hmm] at hfail hfr
    cases r with
    | none =>
      dsimp only
      rw [show h' = h from hfr]
    | some np => simp at hfail

theorem my_realloc_grow_failure_frame_witness :
    findBlock 24 [(⟨0, 8, false⟩ : Block)] = some (0, ⟨0, 8, false⟩) ∧
      (my_malloc ⟨[⟨0, 8, false⟩], 32⟩ false 16).1 = none ∧
      my_realloc ⟨[⟨0, 8, false⟩], 32⟩ (fun _ => 0) false 24 16 =
        (none, ⟨[⟨0, 8, false⟩], 32⟩, fun _ => 0) :=
  ⟨by decide, by decide,
    my_realloc_grow_failure_frame ⟨[⟨0, 8, false⟩], 32⟩ (fun _ => 0) false 24 16 0
      ⟨0, 8, false⟩ (by decide) (by decide) (by decide) (by decide)⟩

/-! ## Size alignment (C3/C4) -/

theorem sizesAligned_iff (l : List Block) :
    sizesAligned l = true ↔ ∀ b ∈ l, b.size % ALIGNMENT = 0 := by
  unfold sizesAligned
  rw [List.all_eq_true]
  constructor
  · intro h b hb
    have := h b hb
    rwa [beq_iff_eq] at this
  · intro h b hb
    rw [beq_iff_eq]
    exact h b hb

theorem applySplit_sizes {l : List Block} {i s : Nat}
    (hal : ∀ b ∈ l, b.size % ALIGNMENT = 0) (hs : s % ALIGNMENT = 0) :
    ∀ c ∈ applySplit i s l, c.size % ALIGNMENT = 0 := by
  induction l generalizing i with
  | nil => intro c hc; simp [applySplit] at hc
  | cons b rest ih =>
    intro c hc
    cases i with
    | zero =>
      have hb := hal b (List.mem_cons_self _ _)
      simp only [applySplit] at hc
      unfold split_block at hc
      split at hc
      next hcond =>
        simp only [List.cons_append, List.nil_append, List.mem_cons] at hc
        rcases hc with h1 | h2 | h3
        · rw [h1]; exact hs
        · rw [h2]
          show (b.size - s - BLOCK_SIZE) % ALIGNMENT = 0
          unfold BLOCK_SIZE ALIGNMENT at *
          omega
        · exact hal c (List.mem_cons_of_mem _ h3)
      next =>
        simp only [List.cons_append, List.nil_append, List.mem_cons] at hc
        rcases hc with h1 | h2
        · rw [h1]; exact hb
        · exact hal c (List.mem_cons_of_mem _ h2)
    | succ i =>
      simp only [applySplit] at hc
      rcases List.mem_cons.mp hc with h1 | h2
      · rw [h1]; exact hal b (List.mem_cons_self _ _)
      · exact ih (fun x hx => hal x (List.mem_cons_of_mem _ hx)) c h2

theorem setFreeAt_sizes {l : List Block} {i : Nat} {v : Bool}
    (hal : ∀ b ∈ l, b.size % ALIGNMENT = 0) :
    ∀ c ∈ setFreeAt i v l, c.size % ALIGNMENT = 0 := by
  induction l generalizing i with
  | nil => intro c hc; simp [setFreeAt] at hc
  | cons b rest ih =>
    intro c hc
    cases i with
    | zero =>
      simp only [setFreeAt] at hc
      rcases List.mem_cons.mp hc with h1 | h2
      · rw [h1]; exact hal b (List.mem_cons_self _ _)
      · exact hal c (List.mem_cons_of_mem _ h2)
    | succ i =>
      simp only [setFreeAt] at hc
      rcases List.mem_cons.mp hc with h1 | h2
      · rw [h1]; exact hal b (List.mem_cons_self _ _)
      · exact ih (fun x hx => hal x (List.mem_cons_of_mem _ hx)) c h2

theorem coalesceFrom_sizes :
    ∀ (l : List Block) (cur : Block), cur.size % ALIGNMENT = 0 →
      (∀ b ∈ l, b.size % ALIGNMENT = 0) →
      ∀ c ∈ coalesceFrom cur l, c.size % ALIGNMENT = 0
  | [], cur, hc, _, c, hm => by
    simp only [coalesceFrom, List.mem_singleton] at hm
    rw [hm]; exact hc
  | b2 :: rest, cur, hc, hal, c, hm => by
    simp only [coalesceFrom] at hm
    split at hm
    next =>
      refine coalesceFrom_sizes rest _ ?_ (fun x hx => hal x (List.mem_cons_of_mem _ hx)) c hm
      have hb2 := hal b2 (List.mem_cons_self _ _)
      show (cur.size + (BLOCK_SIZE + b2.size)) % ALIGNMENT = 0
      unfold BLOCK_SIZE ALIGNMENT at *
      omega
    next =>
      rcases List.mem_cons.mp hm with h1 | h2
      · rw [h1]; exact hc
      · exact coalesceFrom_sizes rest b2 (hal b2 (List.mem_cons_self _ _))
          (fun x hx => hal x (List.mem_cons_of_mem _ hx)) c h2

theorem coalesce_sizes {l : List Block} (hal : ∀ b ∈ l, b.size % ALIGNMENT = 0) :
    ∀ c ∈ coalesce l, c.size % ALIGNMENT = 0 := by
  cases l with
  | nil => intro c hc; simp [coalesce] at hc
  | cons b rest =>
    exact coalesceFrom_sizes rest b (hal b (List.mem_cons_self _ _))
      (fun x hx => hal x (List.mem_cons_of_mem _ hx))

theorem my_malloc_sizes (h : Heap) (ok : Bool) (s : Nat)
    (hal : ∀ b ∈ h.blocks, b.size % ALIGNMENT = 0) :
    ∀ c ∈ (my_malloc h ok s).2.blocks, c.size % ALIGNMENT = 0 := by
  by_cases hs : s = 0
  · simpa [my_malloc, hs] using hal
  · cases hbl : h.blocks with
    | nil =>
      cases ok with
      | false => simp [my_malloc, hs, hbl, request_space]
      | true =>
        intro c hc
        simp [my_malloc, hs, hbl, request_space] at hc
        rw [hc]
        exact ALIGN_mod_eq_zero s
    | cons b0 t0 =>
      cases hff : find_free_block_first_fit (ALIGN s) (b0 :: t0) with
      | none =>
        cases ok with
        | false => simpa [my_malloc, hs, hbl, hff, request_space] using hal
        | true =>
          intro c hc
          simp [my_malloc, hs, hbl, hff, request_space] at hc
          rcases hc with h1 | h2 | h3
          · exact hal c (hbl ▸ (h1 ▸ List.mem_cons_self b0 t0))
          · exact hal c (hbl ▸ List.mem_cons_of_mem _ h2)
          · rw [h3]
            exact ALIGN_mod_eq_zero s
      | some p =>
        obtain ⟨i, b⟩ := p
        intro c hc
        simp only [my_malloc, hbl, hff, if_neg hs] at hc
        refine setFreeAt_sizes (applySplit_sizes ?_ (ALIGN_mod_eq_zero s)) c hc
        exact fun x hx => hal x (hbl ▸ hx)

theorem my_free_sizes (h : Heap) (ptr : Nat)
    (hal : ∀ b ∈ h.blocks, b.size % ALIGNMENT = 0) :
    ∀ c ∈ (my_free h ptr).blocks, c.size % ALIGNMENT = 0 := by
  unfold my_free
  split
  next => exact hal
  next =>
    cases hfb : findBlock ptr h.blocks with
    | none => exact hal
    | some p =>
      obtain ⟨i, b⟩ := p
      exact coalesce_sizes (setFreeAt_sizes hal)

theorem my_realloc_sizes (h : Heap) (m : Mem) (ok : Bool) (ptr size : Nat)
    (hsize : size % ALIGNMENT = 0)
    (hal : ∀ b ∈ h.blocks, b.size % ALIGNMENT = 0) :
    ∀ c ∈ (my_realloc h m ok ptr size).2.1.blocks, c.size % ALIGNMENT = 0 := by
  unfold my_realloc
  split
  next =>
    have hres := my_malloc_sizes h ok size hal
    cases hmm : my_malloc h ok size with
    | mk r h' =>
      rw [hmm] at hres
      exact hres
  next =>
    split
    next => exact my_free_sizes h ptr hal
    next =>
      cases hfb : findBlock ptr h.blocks with
      | none => exact hal
      | some p =>
        obtain ⟨i, b⟩ := p
        dsimp only
        split
        next => exact applySplit_sizes hal hsize
        next =>
          have hres := my_malloc_sizes h ok size hal
          cases hmm : my_malloc h ok size with
          | mk r h' =>
            rw [hmm] at hres
            cases r with
            | none => exact hres
            | some newPtr => exact my_free_sizes h' ptr hres

/-- Per-call preservation of size alignment under the trace condition. -/
theorem step_sizes (s : Heap × Mem) (op : Op) (hop : reallocAligned op = true)
    (hal : ∀ b ∈ s.1.blocks, b.size % ALIGNMENT = 0) :
    ∀ c ∈ (step s op).1.blocks, c.size % ALIGNMENT = 0 := by
  cases op with
  | malloc ok size =>
    show ∀ c ∈ (runOp s (.malloc ok size)).2.1.blocks, _
    unfold runOp
    dsimp only
    have hres := my_malloc_sizes s.1 ok size hal
    cases hmm : my_malloc s.1 ok size with
    | mk r h' =>
      rw [hmm] at hres
      exact hres
  | mfree ptr => exact my_free_sizes s.1 ptr hal
  | mrealloc ok ptr size =>
    unfold reallocAligned at hop
    rw [beq_iff_eq] at hop
    exact my_realloc_sizes s.1 s.2 ok ptr size hop hal

/-- C3 counterexample: on the valid trace `my_malloc 64`, then (through the
returned pointer 24) `my_realloc(24, 4)`, the in-place shrink path calls
`split_block` at the raw size 4, leaving a used block of size 4 — not a
multiple of the alignment.  The claim as stated is false on the code. -/
theorem realloc_shrink_unaligned_size_counterexample :
    okTrace (init 0 (fun _ => 0)) [.malloc true 64, .mrealloc true 24 4] = true ∧
      sizesAligned
        (run (init 0 (fun _ => 0)) [.malloc true 64, .mrealloc true 24 4]).1.blocks
        = false := by
  constructor
  · decide
  · decide

/-- C3 amended.  Every block's size is a multiple of the alignment (8) in
every state reached from the empty heap through the public API, provided
every `my_realloc` call uses a size that is a multiple of the alignment
(the in-place shrink path of `my_realloc` splits at the raw size without
realigning, so unaligned realloc sizes break the property — see the
counterexample). -/
theorem api_sizes_aligned (b0 : Nat) (m0 : Mem) (ops : List Op)
    (hops : ∀ op ∈ ops, reallocAligned op = true) :
    sizesAligned (run (init b0 m0) ops).1.blocks = true := by
  rw [sizesAligned_iff]
  suffices hgen : ∀ (ops : List Op) (s : Heap × Mem),
      (∀ op ∈ ops, reallocAligned op = true) →
      (∀ b ∈ s.1.blocks, b.size % ALIGNMENT = 0) →
      ∀ b ∈ (run s ops).1.blocks, b.size % ALIGNMENT = 0 by
    refine hgen ops (init b0 m0) hops ?_
    intro b hb
    simp [init] at hb
  intro ops
  induction ops with
  | nil => intro s _ hal; exact hal
  | cons op rest ih =>
    intro s hops hal
    show ∀ b ∈ (run (step s op) rest).1.blocks, _
    exact ih (step s op) (fun x hx => hops x (List.mem_cons_of_mem _ hx))
      (step_sizes s op (hops op (List.mem_cons_self _ _)) hal)

theorem api_sizes_aligned_witness :
    (∀ op ∈ [Op.malloc true 64, Op.mrealloc true 24 8], reallocAligned op = true) ∧
      sizesAligned
        (run (init 0 (fun _ => 0)) [Op.malloc true 64, Op.mrealloc true 24 8]).1.blocks
        = true :=
  ⟨by decide, api_sizes_aligned 0 (fun _ => 0) [Op.malloc true 64, Op.mrealloc true 24 8]
    (by decide)⟩

/-- C4, evaluated at the failing input.  After `p = my_malloc 64` and
`my_realloc(p, 4)` (both legitimate API calls), `my_malloc 8` succeeds and
returns address 52, which is not 0 modulo the alignment: the in-place shrink
of `my_realloc` leaves a misaligned free block that first-fit later hands
out.  This contradicts the repository's own documentation ("enforce that
every user allocation starts at an 8-byte boundary"). -/
theorem my_malloc_misaligned_pointer_after_unaligned_realloc :
    okTrace (init 0 (fun _ => 0)) [.malloc true 64, .mrealloc true 24 4, .malloc true 8]
        = true ∧
      (runOp (run (init 0 (fun _ => 0)) [.malloc true 64, .mrealloc true 24 4])
          (.malloc true 8)).1 = some 52 ∧
      ¬ 52 % ALIGNMENT = 0 := by
  refine ⟨by decide, by decide, by decide⟩

/-! ## Best-fit search (C5) -/

/-- Once the loop holds a best candidate, it never returns to `NULL`. -/
theorem bestFitGo_best_mono (size : Nat) :
    ∀ (l : List Block) (j i0 bsz : Nat) (last : Option Nat),
      (bestFitGo size l j (some i0) bsz last).1 ≠ none
  | [], j, i0, bsz, last => by simp [bestFitGo]
  | b :: rest, j, i0, bsz, last => by
    dsimp only [bestFitGo]
    split
    next => exact bestFitGo_best_mono size rest (j + 1) j b.size _
    next => exact bestFitGo_best_mono size rest (j + 1) i0 bsz _

/-- If the loop ends with `best = NULL`, it started with `best = NULL` and
saw no candidate (free, fitting, strictly below the running best size). -/
theorem bestFitGo_none_spec (size : Nat) :
    ∀ (l : List Block) (j : Nat) (best : Option Nat) (bsz : Nat) (last : Option Nat),
      (bestFitGo size l j best bsz last).1 = none →
      best = none ∧ ∀ b ∈ l, ¬(b.free = true ∧ size ≤ b.size ∧ b.size < bsz)
  | [], j, best, bsz, last, h =>
    ⟨by simpa [bestFitGo] using h, by intro b hb; cases hb⟩
  | b :: rest, j, best, bsz, last, h => by
    dsimp only [bestFitGo] at h
    split at h
    next hc => exact absurd h (bestFitGo_best_mono size rest (j + 1) j b.size _)
    next hc =>
      obtain ⟨hb, hrest⟩ := bestFitGo_none_spec size rest (j + 1) best bsz _ h
      refine ⟨hb, ?_⟩
      intro x hx
      rcases List.mem_cons.mp hx with h1 | h2
      · rw [h1]; exact hc
      · exact hrest x h2

/-- If the loop ends with `best = some i`, either it kept its starting best
and saw no candidate, or `i` points at the earliest minimum-size candidate
of the scanned suffix (under the running cap `bsz`). -/
theorem bestFitGo_some_spec (size : Nat) :
    ∀ (l : List Block) (j : Nat) (best : Option Nat) (bsz : Nat) (last : Option Nat)
      (i : Nat),
      (bestFitGo size l j best bsz last).1 = some i →
      (best = some i ∧ ∀ b ∈ l, ¬(b.free = true ∧ size ≤ b.size ∧ b.size < bsz)) ∨
      (∃ k b, l.get? k = some b ∧ i = j + k ∧
        (b.free = true ∧ size ≤ b.size ∧ b.size < bsz) ∧
        ∀ k' c, l.get? k' = some c → c.free = true → size ≤ c.size → c.size < bsz →
          b.size ≤ c.size ∧ (c.size = b.size → k ≤ k'))
  | [], j, best, bsz, last, i, h =>
    Or.inl ⟨by simpa [bestFitGo] using h, by intro b hb; cases hb⟩
  | b :: rest, j, best, bsz, last, i, h => by
    dsimp only [bestFitGo] at h
    split at h
    next hc =>
      rcases bestFitGo_some_spec size rest (j + 1) (some j) b.size _ i h with
        ⟨hbj, hno⟩ | ⟨k, b', hget, hik, hcand, hmin⟩
      · refine Or.inr ⟨0, b, rfl, ?_, hc, ?_⟩
        · have := Option.some.inj hbj
          omega
        · intro k' c hget' hcf hcs hclt
          cases k' with
          | zero =>
            have hcb : b = c := by simpa using hget'
            cases hcb
            exact ⟨Nat.le_refl _, fun _ => Nat.zero_le _⟩
          | succ m =>
            have hmem : c ∈ rest := List.get?_mem (by simpa using hget')
            have hnc := hno c hmem
            have : ¬ c.size < b.size := fun hlt => hnc ⟨hcf, hcs, hlt⟩
            exact ⟨by omega, fun _ => Nat.zero_le _⟩
      · refine Or.inr ⟨k + 1, b', by simpa using hget, by omega,
          ⟨hcand.1, hcand.2.1, lt_trans hcand.2.2 hc.2.2⟩, ?_⟩
        intro k' c hget' hcf hcs hclt
        cases k' with
        | zero =>
          have hcb : b = c := by simpa using hget'
          have hlt : b'.size < b.size := hcand.2.2
          cases hcb
          exact ⟨Nat.le_of_lt hlt, fun heq => absurd heq (by omega)⟩
        | succ m =>
          have hget'' : rest.get? m = some c := by simpa using hget'
          by_cases hltb : c.size < b.size
          · have := hmin m c hget'' hcf hcs hltb
            exact ⟨this.1, fun heq => by have := this.2 heq; omega⟩
          · have hlt : b'.size < b.size := hcand.2.2
            exact ⟨by omega, fun heq => absurd heq (by omega)⟩
    next hc =>
      rcases bestFitGo_some_spec size rest (j + 1) best bsz _ i h with
        ⟨hbi, hno⟩ | ⟨k, b', hget, hik, hcand, hmin⟩
      · refine Or.inl ⟨hbi, ?_⟩
        intro x hx
        rcases List.mem_cons.mp hx with h1 | h2
        · rw [h1]; exact hc
        · exact hno x h2
      · refine Or.inr ⟨k + 1, b', by simpa using hget, by omega, hcand, ?_⟩
        intro k' c hget' hcf hcs hclt
        cases k' with
        | zero =>
          have hcb : b = c := by simpa using hget'
          cases hcb
          exact absurd ⟨hcf, hcs, hclt⟩ hc
        | succ m =>
          have hget'' : rest.get? m = some c := by simpa using hget'
          have := hmin m c hget'' hcf hcs hclt
          exact ⟨this.1, fun heq => by have := this.2 heq; omega⟩

/-- On a miss (`best = NULL` at the end), `*last` walked every node and
holds the true tail. -/
theorem bestFitGo_none_last (size : Nat) :
    ∀ (l : List Block) (j bsz : Nat) (last : Option Nat),
      l ≠ [] → (bestFitGo size l j none bsz last).1 = none →
      (bestFitGo size l j none bsz last).2 = some (j + l.length - 1)
  | [], _, _, _, hne, _ => absurd rfl hne
  | b :: rest, j, bsz, last, _, h => by
    dsimp only [bestFitGo] at h ⊢
    by_cases hc : b.free = true ∧ size ≤ b.size ∧ b.size < bsz
    · rw [if_pos hc] at h
      exact absurd h (bestFitGo_best_mono size rest (j + 1) j b.size _)
    · rw [if_neg hc] at h ⊢
      rw [if_pos (Or.inl rfl)] at h ⊢
      cases rest with
      | nil =>
        show (bestFitGo size [] (j + 1) none bsz (some j)).2 = _
        simp [bestFitGo]
      | cons r t =>
        show (bestFitGo size (r :: t) (j + 1) none bsz (some j)).2 = _
        have hh : (bestFitGo size (r :: t) (j + 1) none bsz (some j)).1 = none := h
        rw [bestFitGo_none_last size (r :: t) (j + 1) bsz (some j) (by simp) hh]
        congr 1
        simp only [List.length_cons]
        omega

/-- Once a best exists, `*last` is pinned to the best block: `*last` is
updated only at the moment the best changes (when `current == best`). -/
theorem bestFitGo_best_last (size : Nat) :
    ∀ (l : List Block) (j : Nat) (best : Option Nat) (bsz : Nat) (last : Option Nat),
      (best = none ∨ ∃ i0, best = some i0 ∧ i0 < j ∧ last = some i0) →
      ∀ i, (bestFitGo size l j best bsz last).1 = some i →
        (bestFitGo size l j best bsz last).2 = some i
  | [], j, best, bsz, last, hinv, i, h => by
    dsimp only [bestFitGo] at h ⊢
    rcases hinv with h0 | ⟨i0, hb, _, hl⟩
    · rw [h0] at h; cases h
    · rw [hb] at h
      rw [hl, Option.some.inj h]
  | b :: rest, j, best, bsz, last, hinv, i, h => by
    dsimp only [bestFitGo] at h ⊢
    by_cases hc : b.free = true ∧ size ≤ b.size ∧ b.size < bsz
    · rw [if_pos hc] at h ⊢
      rw [if_pos (Or.inr rfl)] at h ⊢
      exact bestFitGo_best_last size rest (j + 1) (some j) b.size (some j)
        (Or.inr ⟨j, rfl, by omega, rfl⟩) i h
    · rw [if_neg hc] at h ⊢
      rcases hinv with h0 | ⟨i0, hb, hij, hl⟩
      · rw [h0] at h ⊢
        rw [if_pos (Or.inl rfl)] at h ⊢
        exact bestFitGo_best_last size rest (j + 1) none bsz (some j) (Or.inl rfl) i h
      · rw [hb] at h ⊢
        have hcond : ¬((some i0 : Option Nat) = none ∨ (some i0 : Option Nat) = some j) := by
          rintro (h1 | h2)
          · cases h1
          · have := Option.some.inj h2
            omega
        rw [if_neg hcond] at h ⊢
        exact bestFitGo_best_last size rest (j + 1) (some i0) bsz last
          (Or.inr ⟨i0, rfl, by omega, hl⟩) i h

/-- C5 counterexample: on the chain `[free block of size 32, used block]`
with request 8, best-fit selects node 0 and leaves `*last` at node 0 — not
the true final node (position 1).  The claimed "sets its last out-parameter
to the true final node of the chain, independent of which node is selected"
is false on the code. -/
theorem best_fit_last_not_tail_counterexample :
    (find_free_block_best_fit 8 [⟨0, 32, true⟩, ⟨56, 8, false⟩]).2 = some 0 ∧
      some 0 ≠ some ([(⟨0, 32, true⟩ : Block), ⟨56, 8, false⟩].length - 1) := by
  constructor
  · decide
  · decide

/-- C5 amended.  For every chain whose sizes are below `SIZE_MAX` and every
request: if best-fit returns a block, it is a free block with enough
capacity, of minimum capacity among all such blocks, earliest among
equal-size candidates — and then `last` points at that best block itself
(not, in general, the chain tail).  If best-fit returns `NULL`, no free
block fits, and then (on a non-empty chain) `last` is the true final node.
The `last` outcome does depend on whether a best was selected, contrary to
the original claim. -/
theorem best_fit_characterization (size : Nat) (l : List Block)
    (hsz : ∀ b ∈ l, b.size < SIZE_MAX) :
    (∀ i, (find_free_block_best_fit size l).1 = some i →
      (∃ b, l.get? i = some b ∧ b.free = true ∧ size ≤ b.size ∧
        ∀ j c, l.get? j = some c → c.free = true → size ≤ c.size →
          b.size ≤ c.size ∧ (c.size = b.size → i ≤ j)) ∧
      (find_free_block_best_fit size l).2 = some i) ∧
    ((find_free_block_best_fit size l).1 = none →
      (∀ c ∈ l, ¬(c.free = true ∧ size ≤ c.size)) ∧
      (l ≠ [] → (find_free_block_best_fit size l).2 = some (l.length - 1))) := by
  constructor
  · intro i hi
    constructor
    · rcases bestFitGo_some_spec size l 0 none SIZE_MAX none i hi with ⟨h0, _⟩ | hsome
      · cases h0
      · obtain ⟨k, b, hget, hik, hcand, hmin⟩ := hsome
        have hik' : i = k := by omega
        subst hik'
        refine ⟨b, hget, hcand.1, hcand.2.1, ?_⟩
        intro j c hgetj hcf hcs
        have hcsz : c.size < SIZE_MAX := hsz c (List.get?_mem hgetj)
        exact hmin j c hgetj hcf hcs hcsz
    · exact bestFitGo_best_last size l 0 none SIZE_MAX none (Or.inl rfl) i hi
  · intro hnone
    obtain ⟨_, hno⟩ := bestFitGo_none_spec size l 0 none SIZE_MAX none hnone
    constructor
    · intro c hc hcand
      exact hno c hc ⟨hcand.1, hcand.2, hsz c hc⟩
    · intro hne
      simpa using bestFitGo_none_last size l 0 SIZE_MAX none hne hnone

theorem best_fit_characterization_witness :
    (∀ b ∈ [(⟨0, 32, true⟩ : Block), ⟨56, 8, false⟩], b.size < SIZE_MAX) ∧
      (find_free_block_best_fit 8 [(⟨0, 32, true⟩ : Block), ⟨56, 8, false⟩]).1 = some 0 ∧
      (find_free_block_best_fit 8 [(⟨0, 32, true⟩ : Block), ⟨56, 8, false⟩]).2 = some 0 :=
  ⟨by decide, by decide,
    ((best_fit_characterization 8 [⟨0, 32, true⟩, ⟨56, 8, false⟩] (by decide)).1 0
      (by decide)).2⟩

/-! ## Address distinctness and frame lemmas (C9/C10) -/

/-- In an adjacent chain, the head's address is below every later
address. -/
theorem chainAdj_head_lt :
    ∀ {l : List Block} {b : Block}, chainAdj (b :: l) = true →
      ∀ y ∈ l, b.addr < y.addr
  | [], _, _, y, hy => by cases hy
  | r :: t, b, h, y, hy => by
    rw [chainAdj_cons₂] at h
    obtain ⟨h1, h2⟩ := Bool.and_eq_true_iff.mp h
    rw [beq_iff_eq] at h1
    have hbr : b.addr < r.addr := by unfold BLOCK_SIZE at h1; omega
    rcases List.mem_cons.mp hy with h3 | h4
    · rw [h3]; exact hbr
    · exact Nat.lt_trans hbr (chainAdj_head_lt h2 y h4)

/-- In an adjacent chain, positions determine addresses strictly
monotonically. -/
theorem chainAdj_get_lt :
    ∀ {l : List Block} {q1 q2 : Nat} {b1 b2 : Block}, chainAdj l = true →
      l.get? q1 = some b1 → l.get? q2 = some b2 → q1 < q2 → b1.addr < b2.addr
  | [], _, _, _, _, _, hg, _, _ => by simp at hg
  | b :: rest, 0, q2 + 1, b1, b2, h, hg1, hg2, _ => by
    have hb1 : b = b1 := by simpa using hg1
    have hmem : b2 ∈ rest := List.get?_mem (by simpa using hg2)
    rw [← hb1]
    exact chainAdj_head_lt h b2 hmem
  | b :: rest, q1 + 1, q2 + 1, b1, b2, h, hg1, hg2, hlt => by
    exact chainAdj_get_lt (chainAdj_tail h) (by simpa using hg1) (by simpa using hg2)
      (by omega)

/-- Position-wise description of `setFreeAt`. -/
theorem setFreeAt_get? :
    ∀ (l : List Block) (i : Nat) (v : Bool) (q : Nat),
      (setFreeAt i v l).get? q =
        if q = i then (l.get? q).map (fun b => ⟨b.addr, b.size, v⟩) else l.get? q
  | [], i, v, q => by simp [setFreeAt]
  | b :: rest, 0, v, 0 => by simp [setFreeAt]
  | b :: rest, 0, v, q + 1 => by simp [setFreeAt]
  | b :: rest, i + 1, v, 0 => by simp [setFreeAt]
  | b :: rest, i + 1, v, q + 1 => by
    show (setFreeAt i v rest).get? q = _
    rw [setFreeAt_get? rest i v q]
    by_cases hqi : q = i
    · rw [if_pos hqi, if_pos (by omega : q + 1 = i + 1)]
      rfl
    · rw [if_neg hqi, if_neg (by omega : ¬ q + 1 = i + 1)]
      rfl

/-- A used block of `setFreeAt i true l` is a block of `l` other than the
one at position `i` — in an adjacent chain, a block at a different
address. -/
theorem used_in_setFree_ne {l : List Block} {i : Nat} {b c : Block}
    (hadj : chainAdj l = true) (hgi : l.get? i = some b)
    (hc : c ∈ setFreeAt i true l) (hu : c.free = false) :
    c ∈ l ∧ c.addr ≠ b.addr := by
  obtain ⟨q, hq⟩ := List.mem_iff_get?.mp hc
  rw [setFreeAt_get? l i true q] at hq
  by_cases hqi : q = i
  · rw [if_pos hqi] at hq
    subst hqi
    rw [hgi] at hq
    simp only [Option.map_some', Option.some.injEq] at hq
    rw [← hq] at hu
    simp at hu
  · rw [if_neg hqi] at hq
    refine ⟨List.get?_mem hq, ?_⟩
    rcases Nat.lt_or_ge q i with hlt | hge
    · have := chainAdj_get_lt hadj hq hgi hlt
      omega
    · have hlt : i < q := by omega
      have := chainAdj_get_lt hadj hgi hq hlt
      omega

/-- Lookup succeeds whenever some chain block has payload `ptr`. -/
theorem findBlock_isSome_of_mem :
    ∀ {l : List Block} {ptr : Nat}, (∃ cb ∈ l, cb.addr + BLOCK_SIZE = ptr) →
      ∃ i b, findBlock ptr l = some (i, b)
  | [], _, hex => by
    obtain ⟨cb, hm, _⟩ := hex
    cases hm
  | x :: rest, ptr, hex => by
    simp only [findBlock]
    split
    next => exact ⟨0, x, rfl⟩
    next hne =>
      obtain ⟨cb, hm, hcb⟩ := hex
      rcases List.mem_cons.mp hm with h1 | h2
      · exact absurd (h1 ▸ hcb) hne
      · obtain ⟨i, b, hfb⟩ := findBlock_isSome_of_mem ⟨cb, h2, hcb⟩
        exact ⟨i + 1, b, by rw [hfb]; rfl⟩

/-- After `my_free h1 ptr` on a pointer that is the payload of some chain
block, no used block has payload `ptr` any more. -/
theorem my_free_no_used_at_ptr {h1 : Heap} {ptr : Nat}
    (hadj : chainAdj h1.blocks = true)
    (hex : ∃ cb ∈ h1.blocks, cb.addr + BLOCK_SIZE = ptr) :
    ∀ c ∈ (my_free h1 ptr).blocks, c.free = false → c.addr + BLOCK_SIZE ≠ ptr := by
  have hptr : ptr ≠ 0 := by
    obtain ⟨cb, _, hcb⟩ := hex
    unfold BLOCK_SIZE at hcb
    omega
  obtain ⟨i, b, hfb⟩ := findBlock_isSome_of_mem hex
  have haddr := findBlock_addr hfb
  have hget := findBlock_get hfb
  intro c hc hu heq
  unfold my_free at hc
  rw [if_neg hptr, hfb] at hc
  have hc' : c ∈ setFreeAt i true h1.blocks := coalesce_used_mem_rev hc hu
  obtain ⟨_, hne⟩ := used_in_setFree_ne hadj hget hc' hu
  exact hne (by omega)

/-- A used block survives a split at a position holding a free block. -/
theorem applySplit_mem_used :
    ∀ (l : List Block) (i s : Nat) {c : Block}, c ∈ l → c.free = false →
      (∀ b, l.get? i = some b → b.free = true) → c ∈ applySplit i s l
  | [], _, _, _, hm, _, _ => by cases hm
  | b :: rest, 0, s, c, hm, hu, hfree => by
    have hbf : b.free = true := hfree b rfl
    show c ∈ split_block b s ++ rest
    rcases List.mem_cons.mp hm with h1 | h2
    · rw [h1] at hu
      rw [hu] at hbf
      cases hbf
    · exact List.mem_append_right _ h2
  | b :: rest, i + 1, s, c, hm, hu, hfree => by
    show c ∈ b :: applySplit i s rest
    rcases List.mem_cons.mp hm with h1 | h2
    · rw [h1]
      exact List.mem_cons_self _ _
    · exact List.mem_cons_of_mem _
        (applySplit_mem_used rest i s h2 hu (fun x hx => hfree x (by simpa using hx)))

/-- Splitting at a position holding a free block leaves a free block at that
position. -/
theorem applySplit_get_free :
    ∀ (l : List Block) (i s : Nat), (∀ b, l.get? i = some b → b.free = true) →
      ∀ b', (applySplit i s l).get? i = some b' → b'.free = true
  | [], i, s, _, b', hb' => by simp [applySplit] at hb'
  | b :: rest, 0, s, hfree, b', hb' => by
    have hbf := hfree b rfl
    revert hb'
    show (split_block b s ++ rest).get? 0 = some b' → _
    unfold split_block
    split
    · intro hb'
      have hb'' : b' = ⟨b.addr, s, b.free⟩ := by
        have : some (⟨b.addr, s, b.free⟩ : Block) = some b' := by simpa using hb'
        exact (Option.some.inj this).symm
      rw [hb'']
      exact hbf
    · intro hb'
      have hb'' : b' = b := by
        have : some b = some b' := by simpa using hb'
        exact (Option.some.inj this).symm
      rw [hb'']
      exact hbf
  | b :: rest, i + 1, s, hfree, b', hb' =>
    applySplit_get_free rest i s (fun x hx => hfree x (by simpa using hx)) b' hb'

/-- A used block survives a flag update at a position holding a free
block. -/
theorem setFreeAt_mem_used :
    ∀ (l : List Block) (i : Nat) (v : Bool) {c : Block}, c ∈ l → c.free = false →
      (∀ b, l.get? i = some b → b.free = true) → c ∈ setFreeAt i v l
  | [], _, _, _, hm, _, _ => by cases hm
  | b :: rest, 0, v, c, hm, hu, hfree => by
    have hbf : b.free = true := hfree b rfl
    show c ∈ ⟨b.addr, b.size, v⟩ :: rest
    rcases List.mem_cons.mp hm with h1 | h2
    · rw [h1] at hu
      rw [hu] at hbf
      cases hbf
    · exact List.mem_cons_of_mem _ h2
  | b :: rest, i + 1, v, c, hm, hu, hfree => by
    show c ∈ b :: setFreeAt i v rest
    rcases List.mem_cons.mp hm with h1 | h2
    · rw [h1]
      exact List.mem_cons_self _ _
    · exact List.mem_cons_of_mem _
        (setFreeAt_mem_used rest i v h2 hu (fun x hx => hfree x (by simpa using hx)))

/-- A block that is in use is untouched by `my_malloc`: the call only splits
a free block, marks that free block used, or appends a fresh block.  (This
also justifies reading `block->size` after the inner `my_malloc` of
`my_realloc`.) -/
theorem my_malloc_keeps_used_block (h : Heap) (ok : Bool) (s : Nat) {c : Block}
    (hc : c ∈ h.blocks) (hu : c.free = false) :
    c ∈ (my_malloc h ok s).2.blocks := by
  by_cases hs : s = 0
  · simpa [my_malloc, hs] using hc
  · cases hbl : h.blocks with
    | nil => rw [hbl] at hc; cases hc
    | cons b0 t0 =>
      cases hff : find_free_block_first_fit (ALIGN s) (b0 :: t0) with
      | none =>
        cases ok with
        | false => simpa [my_malloc, hs, hbl, hff, request_space] using hc
        | true =>
          simp only [my_malloc, hs, hbl, hff, request_space, if_true, if_neg hs]
          exact List.mem_append_left _ (hbl ▸ hc)
      | some p =>
        obtain ⟨i, b⟩ := p
        have hsound := firstFit_sound
          (show find_free_block_first_fit (ALIGN s) (b0 :: t0) = some (i, b) from hff)
        have hfree : ∀ x, (b0 :: t0).get? i = some x → x.free = true := by
          intro x hx
          rw [hsound.1] at hx
          rw [← Option.some.inj hx]
          exact hsound.2.1
        simp only [my_malloc, hs, hbl, hff, if_neg hs]
        exact setFreeAt_mem_used _ i false
          (applySplit_mem_used _ i (ALIGN s) (hbl ▸ hc) hu hfree) hu
          (applySplit_get_free _ i (ALIGN s) hfree)

theorem setFreeAt_head_addr (l : List Block) (i : Nat) (v : Bool) :
    ((setFreeAt i v l).head?).map Block.addr = (l.head?).map Block.addr := by
  cases l with
  | nil => simp [setFreeAt]
  | cons r t =>
    obtain ⟨y, t', heq, ha, _⟩ := setFreeAt_cons_head i v r t
    rw [heq]
    simp [ha]

theorem coalesce_head_addr (l : List Block) :
    ((coalesce l).head?).map Block.addr = (l.head?).map Block.addr := by
  cases l with
  | nil => rfl
  | cons r t =>
    obtain ⟨y, t', heq, ha, _⟩ := coalesceFrom_head t r
    show ((coalesceFrom r t).head?).map Block.addr = _
    rw [heq]
    simp [ha]

/-- C10.  `my_free p`, for `p` the payload of a used block of a chain
satisfying the ledger invariant: the head pointer (address of the first
block) is unchanged; every other used block survives with identical address,
size, flag (it stays in the chain as the same block value); no used block is
created, and `p`'s own block is no longer among the used blocks; and no
payload byte changes.  Only `p`'s block's flag and merges among free blocks
alter the chain. -/
theorem my_free_frame_effect (h : Heap) (m : Mem) (ptr i : Nat) (b : Block)
    (hadj : chainAdj h.blocks = true)
    (hfb : findBlock ptr h.blocks = some (i, b)) (_hused : b.free = false) :
    ((my_free h ptr).blocks.head?).map Block.addr = (h.blocks.head?).map Block.addr ∧
    (∀ c ∈ h.blocks, c.free = false → c.addr ≠ b.addr → c ∈ (my_free h ptr).blocks) ∧
    (∀ c ∈ (my_free h ptr).blocks, c.free = false → c ∈ h.blocks ∧ c.addr ≠ b.addr) ∧
    (runOp (h, m) (.mfree ptr)).2.2 = m := by
  have haddr := findBlock_addr hfb
  have hget := findBlock_get hfb
  have hptr : ptr ≠ 0 := by unfold BLOCK_SIZE at haddr; omega
  have hblocks : (my_free h ptr).blocks = coalesce (setFreeAt i true h.blocks) := by
    unfold my_free
    rw [if_neg hptr, hfb]
  refine ⟨?_, ?_, ?_, rfl⟩
  · rw [hblocks, coalesce_head_addr, setFreeAt_head_addr]
  · intro c hc hcu hcne
    rw [hblocks]
    refine coalesce_used_mem ?_ hcu
    obtain ⟨q, hq⟩ := List.mem_iff_get?.mp hc
    have hqi : q ≠ i := by
      intro hqi
      rw [hqi, hget] at hq
      exact hcne (by rw [← Option.some.inj hq])
    refine List.get?_mem (l := setFreeAt i true h.blocks) (n := q) ?_
    rw [setFreeAt_get? h.blocks i true q, if_neg hqi]
    exact hq
  · intro c hc hcu
    rw [hblocks] at hc
    exact used_in_setFree_ne hadj hget (coalesce_used_mem_rev hc hcu) hcu

theorem my_free_frame_effect_witness :
    chainAdj [(⟨0, 8, false⟩ : Block), ⟨32, 8, false⟩] = true ∧
      findBlock 24 [(⟨0, 8, false⟩ : Block), ⟨32, 8, false⟩] = some (0, ⟨0, 8, false⟩) ∧
      (⟨32, 8, false⟩ : Block) ∈ (my_free ⟨[⟨0, 8, false⟩, ⟨32, 8, false⟩], 64⟩ 24).blocks :=
  ⟨by decide, by decide,
    (my_free_frame_effect ⟨[⟨0, 8, false⟩, ⟨32, 8, false⟩], 64⟩ (fun _ => 0) 24 0
        ⟨0, 8, false⟩ (by decide) (by decide) (by decide)).2.1
      ⟨32, 8, false⟩ (by decide) (by decide) (by decide)⟩

/-- C9.  Growing `my_realloc` that succeeds: for `p` the payload of a used
block of capacity `b.size < size` in an invariant-satisfying heap, if the
inner `my_malloc` succeeds with pointer `newPtr`, the call returns `newPtr`,
the first `min(old size, new size)` payload bytes at `newPtr` equal the old
payload bytes at the moment of the call, and the old block is released — it
goes through `my_free` (hence a coalesce pass) and no used block with
payload `p` remains. -/
theorem my_realloc_grow_success_content (h : Heap) (m : Mem) (ok : Bool)
    (ptr size i : Nat) (b : Block) (newPtr : Nat)
    (hwf : heapWf h = true)
    (hfb : findBlock ptr h.blocks = some (i, b)) (hused : b.free = false)
    (hgrow : b.size < size)
    (hsucc : (my_malloc h ok size).1 = some newPtr) :
    my_realloc h m ok ptr size =
      (some newPtr, my_free (my_malloc h ok size).2 ptr, memcpy m newPtr ptr b.size) ∧
    (∀ k, k < Nat.min b.size size →
      (my_realloc h m ok ptr size).2.2 (newPtr + k) = m (ptr + k)) ∧
    (∀ c ∈ (my_realloc h m ok ptr size).2.1.blocks, c.free = false →
      c.addr + BLOCK_SIZE ≠ ptr) := by
  have haddr := findBlock_addr hfb
  have hptr : ptr ≠ 0 := by unfold BLOCK_SIZE at haddr; omega
  have hsz : size ≠ 0 := by omega
  have heq : my_realloc h m ok ptr size =
      (some newPtr, my_free (my_malloc h ok size).2 ptr, memcpy m newPtr ptr b.size) := by
    unfold my_realloc
    rw [if_neg hptr, if_neg hsz, hfb]
    dsimp only
    rw [if_neg (by omega : ¬ size ≤ b.size)]
    cases hmm : my_malloc h ok size with
    | mk r h' =>
      rw [hmm] at hsucc
      cases r with
      | none => cases hsucc
      | some np =>
        have hnp : np = newPtr := by simpa using hsucc
        subst hnp
        rfl
  refine ⟨heq, ?_, ?_⟩
  · intro k hk
    have hkb : k < b.size := (Nat.lt_min.mp hk).1
    rw [heq]
    show memcpy m newPtr ptr b.size (newPtr + k) = m (ptr + k)
    unfold memcpy
    rw [if_pos ⟨by omega, by omega⟩]
    congr 1
    omega
  · rw [heq]
    have hwf1 := my_malloc_wf h ok size hwf
    have hadj1 : chainAdj (my_malloc h ok size).2.blocks = true :=
      (Bool.and_eq_true_iff.mp hwf1).1
    have hbmem : b ∈ (my_malloc h ok size).2.blocks :=
      my_malloc_keeps_used_block h ok size (List.get?_mem (findBlock_get hfb)) hused
    exact my_free_no_used_at_ptr hadj1 ⟨b, hbmem, haddr⟩

theorem my_realloc_grow_success_content_witness :
    heapWf ⟨[(⟨0, 8, false⟩ : Block)], 32⟩ = true ∧
      findBlock 24 [(⟨0, 8, false⟩ : Block)] = some (0, ⟨0, 8, false⟩) ∧
      (my_malloc ⟨[⟨0, 8, false⟩], 32⟩ true 16).1 = some 56 ∧
      (my_realloc ⟨[⟨0, 8, false⟩], 32⟩ (fun _ => 0) true 24 16).1 = some 56 :=
  ⟨by decide, by decide, by decide, by
    rw [(my_realloc_grow_success_content ⟨[⟨0, 8, false⟩], 32⟩ (fun _ => 0) true 24 16 0
        ⟨0, 8, false⟩ 56 (by decide) (by decide) (by decide) (by decide) (by decide)).1]⟩

end Alloc
